import Mathlib

/-!
Verification of the streql constant-time string comparison package.

The repository ships a single function `equals(x, y)` (in streql.c with a
pure-Python fallback in pypy/streql.py) together with the packaging logic
in setup.py.  Only setup.py is among the available sources, so the
comparator itself is modelled from the specification; the setup dispatch
is embedded directly from setup.py.
-/

/-- Modelled from the spec: the initial accumulator value (step 1 of the
algorithm in §4.1) — nonzero when the lengths differ, zero otherwise.  The
comparator implementation (streql.c / pypy/streql.py) is not among the
available sources. -/
def accInit (x y : List Nat) : Nat :=
  if x.length = y.length then 0 else 1

/-- Modelled from the spec: the comparison length `n = min(len(x), len(y))`
(step 2 of the algorithm in §4.1). -/
def cmpLen (x y : List Nat) : Nat :=
  Nat.min x.length y.length

/-- Modelled from the spec: the `equals` comparator of §4.1 (the
implementation streql.c / pypy/streql.py is not among the available
sources).  Bytes are 8-bit values embedded as `Nat`.  For every index `i`
from `0` to `n-1` the XOR of `x[i]` and `y[i]` is ORed into the
accumulator, and the result is `true` iff the final accumulator is zero. -/
def equals (x y : List Nat) : Bool :=
  decide ((List.range (cmpLen x y)).foldl
    (fun acc i => acc ||| (x.getD i 0 ^^^ y.getD i 0)) (accInit x y) = 0)

/-- The same loop written as structural recursion on the two lists, with
the accumulator threaded through and the number of per-byte comparison
operations counted: `loopInstr x y acc = (final accumulator, trip count)`.
Modelled from the spec: step 3 of §4.1 instrumented with its trip count. -/
def loopInstr : List Nat → List Nat → Nat → Nat × Nat
  | a :: as, b :: bs, acc =>
    let r := loopInstr as bs (acc ||| (a ^^^ b))
    (r.1, r.2 + 1)
  | _, _, acc => (acc, 0)

/-- Folding OR over the byte-wise XORs of the two lists, starting from a
given accumulator value. -/
def xorAcc (x y : List Nat) (acc : Nat) : Nat :=
  (List.zipWith (fun a b => a ^^^ b) x y).foldl (fun acc d => acc ||| d) acc

/-- Modelled from the spec: UTF-8 encoding of a single Unicode code point
(§3, §6: text is converted to bytes via UTF-8 before comparison).  Yields
`none` exactly when the code point cannot be represented in UTF-8:
surrogate code points (0xD800–0xDFFF) and values above 0x10FFFF. -/
def utf8EncodeChar (c : Nat) : Option (List Nat) :=
  if c < 0x80 then some [c]
  else if c < 0x800 then
    some [0xC0 ||| (c >>> 6), 0x80 ||| (c &&& 0x3F)]
  else if 0xD800 ≤ c ∧ c ≤ 0xDFFF then none
  else if c < 0x10000 then
    some [0xE0 ||| (c >>> 12), 0x80 ||| ((c >>> 6) &&& 0x3F), 0x80 ||| (c &&& 0x3F)]
  else if c ≤ 0x10FFFF then
    some [0xF0 ||| (c >>> 18), 0x80 ||| ((c >>> 12) &&& 0x3F),
      0x80 ||| ((c >>> 6) &&& 0x3F), 0x80 ||| (c &&& 0x3F)]
  else none

/-- Modelled from the spec: UTF-8 encoding of a text (a sequence of
Unicode code points); fails iff some code point cannot be encoded. -/
def utf8Encode : List Nat → Option (List Nat)
  | [] => some []
  | c :: cs =>
    match utf8EncodeChar c, utf8Encode cs with
    | some b, some bs => some (b ++ bs)
    | _, _ => none

/-- An input to `equals`: either a raw byte sequence or a text (§6: `x` and
`y` may each be supplied as raw byte sequences or as text). -/
inductive ByteInput where
  | bytes (bs : List Nat)
  | text (cs : List Nat)
  deriving DecidableEq

/-- Modelled from the spec: the error taxonomy of §7 — a single kind,
`EncodingError`. -/
inductive StreqlError where
  | encodingError
  deriving DecidableEq

/-- Modelled from the spec: conversion of an interface input to a byte
sequence; text is UTF-8 encoded and an `EncodingError` is raised iff the
encoding fails. -/
def toBytes : ByteInput → Except StreqlError (List Nat)
  | .bytes bs => .ok bs
  | .text cs =>
    match utf8Encode cs with
    | some bs => .ok bs
    | none => .error .encodingError

/-- Modelled from the spec: the full `equals(x, y)` interface of §6 — both
inputs are converted to bytes (raising `EncodingError` when a text cannot
be encoded), then compared by the constant-time comparator. -/
def equalsChecked (x y : ByteInput) : Except StreqlError Bool :=
  match toBytes x, toBytes y with
  | .ok bx, .ok cy => .ok (equals bx cy)
  | .error e, _ => .error e
  | .ok _, .error e => .error e

/-- An input is encodable when its conversion to bytes succeeds (raw bytes
always are; a text is encodable iff its UTF-8 encoding succeeds). -/
def encodable : ByteInput → Bool
  | .bytes _ => true
  | .text cs => (utf8Encode cs).isSome

/-- One call to distutils/setuptools `setup(...)` as made by setup.py,
keeping the arguments that decide what gets installed. -/
structure SetupCall where
  py_modules : List String
  package_dir : List (String × String)
  ext_modules : List (String × List String)
  deriving DecidableEq

/-- The `setup(...)` call made by `setup_pure_python` in setup.py:
py_modules is the streql module, package_dir maps the empty key to the
pypy directory, and there are no extension modules. -/
def setup_pure_python_call : SetupCall :=
  { py_modules := ["streql"], package_dir := [("", "pypy")], ext_modules := [] }

/-- The `setup(...)` call made by `setup_c_extension` in setup.py:
ext_modules holds one Extension named streql built from streql.c. -/
def setup_c_extension_call : SetupCall :=
  { py_modules := [], package_dir := [], ext_modules := [("streql", ["streql.c"])] }

/-- The top-level dispatch of setup.py (lines 98–126): on PyPy — when
sys has the attribute pypy_version_info — only the pure-Python setup runs;
otherwise the C-extension setup is attempted and, if the build fails with
`BuildFailed`, the pure-Python setup runs as a fallback.  The result is
the list of `setup(...)` calls attempted, in order. -/
def runSetup (is_pypy : Bool) (cBuildFails : Bool) : List SetupCall :=
  if is_pypy then [setup_pure_python_call]
  else if cBuildFails then [setup_c_extension_call, setup_pure_python_call]
  else [setup_c_extension_call]

theorem nat_lor_eq_zero_iff (m n : Nat) : m ||| n = 0 ↔ m = 0 ∧ n = 0 := by
  constructor
  · intro h
    constructor
    · apply Nat.zero_of_testBit_eq_false
      intro i
      have hb := congrArg (fun t => Nat.testBit t i) h
      simp only [Nat.testBit_lor, Nat.zero_testBit, Bool.or_eq_false_iff] at hb
      exact hb.1
    · apply Nat.zero_of_testBit_eq_false
      intro i
      have hb := congrArg (fun t => Nat.testBit t i) h
      simp only [Nat.testBit_lor, Nat.zero_testBit, Bool.or_eq_false_iff] at hb
      exact hb.2
  · rintro ⟨rfl, rfl⟩
    rfl

theorem range_foldl_eq_xorAcc (x : List Nat) :
    ∀ (y : List Nat) (acc : Nat),
      (List.range (Nat.min x.length y.length)).foldl
        (fun acc i => acc ||| (x.getD i 0 ^^^ y.getD i 0)) acc = xorAcc x y acc := by
  induction x with
  | nil =>
    intro y acc
    simp [xorAcc]
  | cons a as ih =>
    intro y acc
    cases y with
    | nil => simp [xorAcc]
    | cons b bs =>
      have hmin : Nat.min (a :: as).length (b :: bs).length =
          Nat.min as.length bs.length + 1 := by
        simp [List.length_cons, Nat.succ_min_succ]
      rw [hmin, List.range_succ_eq_map, List.foldl_cons, List.foldl_map]
      simp only [List.getD_cons_zero, List.getD_cons_succ]
      rw [ih bs (acc ||| (a ^^^ b))]
      simp [xorAcc]

theorem xorAcc_eq_zero_iff (x : List Nat) :
    ∀ (y : List Nat) (acc : Nat),
      xorAcc x y acc = 0 ↔
        acc = 0 ∧ ∀ d ∈ List.zipWith (fun a b => a ^^^ b) x y, d = 0 := by
  induction x with
  | nil =>
    intro y acc
    simp [xorAcc]
  | cons a as ih =>
    intro y acc
    cases y with
    | nil => simp [xorAcc]
    | cons b bs =>
      have step : xorAcc (a :: as) (b :: bs) acc = xorAcc as bs (acc ||| (a ^^^ b)) := by
        simp [xorAcc]
      rw [step, ih bs (acc ||| (a ^^^ b)), nat_lor_eq_zero_iff]
      constructor
      · rintro ⟨⟨h1, h2⟩, h3⟩
        refine ⟨h1, ?_⟩
        intro d hd
        simp only [List.zipWith_cons_cons, List.mem_cons] at hd
        rcases hd with rfl | hd
        · exact h2
        · exact h3 d hd
      · rintro ⟨h1, h2⟩
        simp only [List.zipWith_cons_cons, List.mem_cons] at h2
        exact ⟨⟨h1, h2 _ (Or.inl rfl)⟩, fun d hd => h2 d (Or.inr hd)⟩

theorem zipWith_xor_eq_zero_iff (x : List Nat) :
    ∀ y : List Nat, x.length = y.length →
      ((∀ d ∈ List.zipWith (fun a b => a ^^^ b) x y, d = 0) ↔ x = y) := by
  induction x with
  | nil =>
    intro y hy
    cases y with
    | nil => simp
    | cons b bs => simp at hy
  | cons a as ih =>
    intro y hy
    cases y with
    | nil => simp at hy
    | cons b bs =>
      simp only [List.length_cons, Nat.succ_inj] at hy
      simp only [List.zipWith_cons_cons, List.mem_cons, List.cons.injEq]
      constructor
      · intro h
        refine ⟨Nat.xor_eq_zero.mp (h _ (Or.inl rfl)), ?_⟩
        exact (ih bs hy).mp (fun d hd => h d (Or.inr hd))
      · rintro ⟨rfl, rfl⟩
        intro d hd
        rcases hd with rfl | hd
        · exact Nat.xor_eq_zero.mpr rfl
        · exact (ih as rfl).mpr rfl d hd

theorem accInit_eq_zero_iff (x y : List Nat) :
    accInit x y = 0 ↔ x.length = y.length := by
  unfold accInit
  split <;> simp_all

/-- `equals x y` is `true` exactly when the two byte sequences are equal. -/
theorem equals_true_iff (x y : List Nat) : equals x y = true ↔ x = y := by
  unfold equals cmpLen
  rw [decide_eq_true_iff, range_foldl_eq_xorAcc, xorAcc_eq_zero_iff,
    accInit_eq_zero_iff]
  constructor
  · rintro ⟨hlen, hall⟩
    exact (zipWith_xor_eq_zero_iff x y hlen).mp hall
  · rintro rfl
    exact ⟨rfl, (zipWith_xor_eq_zero_iff x x rfl).mpr rfl⟩

theorem equals_eq_decide (x y : List Nat) : equals x y = decide (x = y) := by
  by_cases h : x = y
  · subst h
    simp [(equals_true_iff x x).mpr rfl]
  · have hne : equals x y ≠ true := fun hc => h ((equals_true_iff x y).mp hc)
    simp [h, Bool.eq_false_iff.mpr hne]

theorem loopInstr_count (x : List Nat) :
    ∀ (y : List Nat) (acc : Nat), (loopInstr x y acc).2 = Nat.min x.length y.length := by
  induction x with
  | nil =>
    intro y acc
    cases y <;> simp [loopInstr]
  | cons a as ih =>
    intro y acc
    cases y with
    | nil => simp [loopInstr]
    | cons b bs => simp [loopInstr, ih, Nat.succ_min_succ]

theorem loopInstr_fst (x : List Nat) :
    ∀ (y : List Nat) (acc : Nat), (loopInstr x y acc).1 = xorAcc x y acc := by
  induction x with
  | nil =>
    intro y acc
    cases y <;> simp [loopInstr, xorAcc]
  | cons a as ih =>
    intro y acc
    cases y with
    | nil => simp [loopInstr, xorAcc]
    | cons b bs =>
      have step : xorAcc (a :: as) (b :: bs) acc = xorAcc as bs (acc ||| (a ^^^ b)) := by
        simp [xorAcc]
      simp [loopInstr, ih, step]

theorem toBytes_error_iff (x : ByteInput) :
    (∃ e, toBytes x = Except.error e) ↔ encodable x = false := by
  cases x with
  | bytes bs => simp [toBytes, encodable]
  | text cs =>
    cases h : utf8Encode cs with
    | none =>
      constructor
      · intro _
        simp [encodable, h]
      · intro _
        exact ⟨StreqlError.encodingError, by simp [toBytes, h]⟩
    | some bs =>
      constructor
      · rintro ⟨e, he⟩
        simp [toBytes, h] at he
      · intro hc
        simp [encodable, h] at hc

theorem equalsChecked_error_iff (u v : ByteInput) :
    (∃ e, equalsChecked u v = Except.error e) ↔
      (encodable u = false ∨ encodable v = false) := by
  cases hu : toBytes u with
  | error e =>
    have h1 : encodable u = false := (toBytes_error_iff u).mp ⟨e, hu⟩
    constructor
    · intro _
      exact Or.inl h1
    · intro _
      refine ⟨e, ?_⟩
      cases hv : toBytes v <;> simp [equalsChecked, hu, hv]
  | ok bu =>
    have h1 : encodable u = true := by
      cases hx : encodable u with
      | true => rfl
      | false =>
        obtain ⟨e, he⟩ := (toBytes_error_iff u).mpr hx
        rw [hu] at he
        exact absurd he (by simp)
    cases hv : toBytes v with
    | error e =>
      have h2 : encodable v = false := (toBytes_error_iff v).mp ⟨e, hv⟩
      constructor
      · intro _
        exact Or.inr h2
      · intro _
        exact ⟨e, by simp [equalsChecked, hu, hv]⟩
    | ok bv =>
      have h2 : encodable v = true := by
        cases hx : encodable v with
        | true => rfl
        | false =>
          obtain ⟨e, he⟩ := (toBytes_error_iff v).mpr hx
          rw [hv] at he
          exact absurd he (by simp)
      constructor
      · rintro ⟨e, he⟩
        simp [equalsChecked, hu, hv] at he
      · rintro (hc | hc)
        · rw [h1] at hc
          exact absurd hc (by simp)
        · rw [h2] at hc
          exact absurd hc (by simp)

/-- C1: `equals x y` returns `true` iff the two byte sequences have equal
length and agree at every position; otherwise it returns `false`. -/
theorem c1_equals_iff_same_bytes (x y : List Nat) :
    equals x y = true ↔
      x.length = y.length ∧
        ∀ (i : Nat) (h1 : i < x.length) (h2 : i < y.length),
          x.get ⟨i, h1⟩ = y.get ⟨i, h2⟩ :=
  (equals_true_iff x y).trans List.ext_get_iff

/-- C1 witness at concrete inputs. -/
theorem c1_equals_iff_same_bytes_witness :
    equals [97, 98, 99] [97, 98, 99] = true ↔
      ([97, 98, 99] : List Nat).length = ([97, 98, 99] : List Nat).length ∧
        ∀ (i : Nat) (h1 : i < ([97, 98, 99] : List Nat).length)
          (h2 : i < ([97, 98, 99] : List Nat).length),
          ([97, 98, 99] : List Nat).get ⟨i, h1⟩ = ([97, 98, 99] : List Nat).get ⟨i, h2⟩ :=
  c1_equals_iff_same_bytes [97, 98, 99] [97, 98, 99]

/-- C2: the per-byte comparison count of the loop is determined by the two
lengths alone — two input pairs with matching lengths have the same trip
count, the count is the full `min` of the lengths (no early exit), and
`equals` is the zero test of the accumulator produced by that full loop. -/
theorem c2_trip_count_content_independent (x1 y1 x2 y2 : List Nat)
    (hx : x1.length = x2.length) (hy : y1.length = y2.length) :
    (loopInstr x1 y1 (accInit x1 y1)).2 = (loopInstr x2 y2 (accInit x2 y2)).2 ∧
    (loopInstr x1 y1 (accInit x1 y1)).2 = Nat.min x1.length y1.length ∧
    equals x1 y1 = decide ((loopInstr x1 y1 (accInit x1 y1)).1 = 0) := by
  refine ⟨?_, loopInstr_count x1 y1 (accInit x1 y1), ?_⟩
  · rw [loopInstr_count, loopInstr_count, hx, hy]
  · unfold equals cmpLen
    rw [range_foldl_eq_xorAcc, loopInstr_fst]

/-- C2 witness: an all-zero pair and a content-differing pair of the same
lengths have the same trip count. -/
theorem c2_trip_count_content_independent_witness :
    ((loopInstr [0, 0] [0, 0] (accInit [0, 0] [0, 0])).2 =
      (loopInstr [1, 2] [3, 4] (accInit [1, 2] [3, 4])).2 ∧
    (loopInstr [0, 0] [0, 0] (accInit [0, 0] [0, 0])).2 =
      Nat.min ([0, 0] : List Nat).length ([0, 0] : List Nat).length ∧
    equals [0, 0] [0, 0] =
      decide ((loopInstr [0, 0] [0, 0] (accInit [0, 0] [0, 0])).1 = 0)) :=
  c2_trip_count_content_independent [0, 0] [0, 0] [1, 2] [3, 4] rfl rfl

/-- C3: `equals` is the accumulator algorithm of the spec — the
accumulator starts nonzero exactly when the lengths differ, the loop ORs
the XOR of every corresponding byte pair over the whole range into it, and
the result is `true` iff the final accumulator is zero. -/
theorem c3_accumulator_algorithm (x y : List Nat) :
    (accInit x y ≠ 0 ↔ x.length ≠ y.length) ∧
    (loopInstr x y (accInit x y)).1 =
      (List.range (Nat.min x.length y.length)).foldl
        (fun acc i => acc ||| (x.getD i 0 ^^^ y.getD i 0)) (accInit x y) ∧
    (equals x y = true ↔ (loopInstr x y (accInit x y)).1 = 0) := by
  refine ⟨not_congr (accInit_eq_zero_iff x y), ?_, ?_⟩
  · rw [loopInstr_fst, range_foldl_eq_xorAcc]
  · unfold equals cmpLen
    rw [decide_eq_true_iff, range_foldl_eq_xorAcc, loopInstr_fst]

/-- C3 witness at concrete inputs of unequal length. -/
theorem c3_accumulator_algorithm_witness :
    (accInit [1] [2, 3] ≠ 0 ↔ ([1] : List Nat).length ≠ ([2, 3] : List Nat).length) ∧
    (loopInstr [1] [2, 3] (accInit [1] [2, 3])).1 =
      (List.range (Nat.min ([1] : List Nat).length ([2, 3] : List Nat).length)).foldl
        (fun acc i =>
          acc ||| (([1] : List Nat).getD i 0 ^^^ ([2, 3] : List Nat).getD i 0))
        (accInit [1] [2, 3]) ∧
    (equals [1] [2, 3] = true ↔ (loopInstr [1] [2, 3] (accInit [1] [2, 3])).1 = 0) :=
  c3_accumulator_algorithm [1] [2, 3]

/-- C4: for raw byte-sequence inputs of any lengths, `equals` produces a
boolean and never an error. -/
theorem c4_bytes_never_error (bx cy : List Nat) :
    equalsChecked (.bytes bx) (.bytes cy) = Except.ok (equals bx cy) :=
  rfl

/-- C5: text is converted to bytes by UTF-8 before comparison, an error is
raised iff some text input cannot be so converted, and the only error kind
is `EncodingError`. -/
theorem c5_text_utf8_encoding (cs bs b2 : List Nat) (y : ByteInput)
    (h1 : utf8Encode cs = some bs) (h2 : toBytes y = Except.ok b2) :
    equalsChecked (.text cs) y = Except.ok (equals bs b2) ∧
    (∀ u v : ByteInput, (∃ e, equalsChecked u v = Except.error e) ↔
      (encodable u = false ∨ encodable v = false)) ∧
    (∀ e : StreqlError, e = StreqlError.encodingError) := by
  refine ⟨?_, equalsChecked_error_iff, fun e => by cases e; rfl⟩
  have hx : toBytes (ByteInput.text cs) = Except.ok bs := by
    simp [toBytes, h1]
  simp [equalsChecked, hx, h2]

/-- C5 witness: the text é (code point 233) is UTF-8 encoded to the bytes
195, 169 before comparison. -/
theorem c5_text_utf8_encoding_witness :
    utf8Encode [233] = some [195, 169] ∧
    toBytes (ByteInput.bytes [195, 169]) = Except.ok [195, 169] ∧
    (equalsChecked (.text [233]) (ByteInput.bytes [195, 169]) =
        Except.ok (equals [195, 169] [195, 169]) ∧
      (∀ u v : ByteInput, (∃ e, equalsChecked u v = Except.error e) ↔
        (encodable u = false ∨ encodable v = false)) ∧
      (∀ e : StreqlError, e = StreqlError.encodingError)) :=
  ⟨by decide, rfl,
    c5_text_utf8_encoding [233] [195, 169] [195, 169] (ByteInput.bytes [195, 169])
      (by decide) rfl⟩

/-- C6: flipping any single bit of any in-range byte of `a` yields a
sequence that `equals` reports as different from `a`. -/
theorem c6_single_bit_flip (a : List Nat) (i k : Nat) (hi : i < a.length) (hk : k < 8) :
    equals a (a.set i (a.get ⟨i, hi⟩ ^^^ (1 <<< k))) = false := by
  rw [equals_eq_decide, decide_eq_false_iff_not]
  intro hEq
  have hi2 : i < (a.set i (a.get ⟨i, hi⟩ ^^^ (1 <<< k))).length := by
    simpa using hi
  have hgd := congrArg (fun l => l.getD i 0) hEq
  simp only [List.getD_eq_getElem?_getD, List.getElem?_eq_getElem hi,
    List.getElem?_eq_getElem hi2, Option.getD_some, List.getElem_set_self] at hgd
  have hg : a.get ⟨i, hi⟩ = a[i] := rfl
  rw [← hg] at hgd
  have h0 : a.get ⟨i, hi⟩ ^^^ (a.get ⟨i, hi⟩ ^^^ (1 <<< k)) = 0 := by
    rw [← hgd]
    exact Nat.xor_self _
  rw [← Nat.xor_assoc, Nat.xor_self, Nat.zero_xor] at h0
  have hpos : 0 < 1 <<< k := by
    rw [Nat.one_shiftLeft]
    exact Nat.two_pow_pos k
  omega

/-- C6 witness: flipping bit 0 of the only byte of the sequence 5. -/
theorem c6_single_bit_flip_witness :
    equals [5] (([5] : List Nat).set 0 (([5] : List Nat).get ⟨0, by decide⟩ ^^^ (1 <<< 0))) =
      false :=
  c6_single_bit_flip [5] 0 0 (by decide) (by decide)

/-- C7: sequences of different lengths never compare equal. -/
theorem c7_length_sensitivity (a b : List Nat) (h : a.length ≠ b.length) :
    equals a b = false := by
  rw [equals_eq_decide, decide_eq_false_iff_not]
  intro hEq
  exact h (by rw [hEq])

/-- C7 witness: the empty sequence against a one-byte sequence. -/
theorem c7_length_sensitivity_witness : equals [] [0] = false :=
  c7_length_sensitivity [] [0] (by decide)

/-- C8: `equals` is reflexive, including on the empty sequence. -/
theorem c8_reflexive (a : List Nat) : equals a a = true :=
  (equals_true_iff a a).mpr rfl

/-- C9: `equals` is symmetric. -/
theorem c9_symmetric (a b : List Nat) : equals a b = equals b a := by
  rw [equals_eq_decide, equals_eq_decide]
  simp [eq_comm]

/-- C10: under PyPy the dispatch in setup.py performs exactly one setup
call — the pure-Python one, which installs the streql module from the
pypy directory and builds no C extension — regardless of any build
outcome; the C-extension setup call happens only on non-PyPy interpreters,
where it is always the first attempt. -/
theorem c10_pypy_pure_python (f : Bool) :
    runSetup true f = [setup_pure_python_call] ∧
    runSetup false false = [setup_c_extension_call] ∧
    runSetup false true = [setup_c_extension_call, setup_pure_python_call] ∧
    setup_pure_python_call.package_dir = [("", "pypy")] ∧
    setup_pure_python_call.py_modules = ["streql"] ∧
    setup_pure_python_call.ext_modules = [] := by
  cases f <;> exact ⟨rfl, rfl, rfl, rfl, rfl, rfl⟩
